import Mathlib

/-!
Verification of the `websvr` thread-pool library (`src/lib.rs`).

The library is the classic fixed-size thread pool:

* `ThreadPool { workers: Vec<Worker>, sender: Option<mpsc::Sender<Job>> }`
* `ThreadPool::new(n)` asserts `n > 0`, creates one mpsc channel, wraps the
  receiver in `Arc<Mutex<..>>` and spawns workers with ids `0..n`.
* `ThreadPool::build(n)` returns `Err(PoolCreationError)` for `n = 0`,
  otherwise `Ok(Self::new(n))`.
* `ThreadPool::execute(f)` does `self.sender.as_ref().unwrap().send(job).unwrap()`.
* `Drop for ThreadPool` drops `self.sender.take()` and then, iterating the
  workers vector in id order, takes and joins each thread with
  `worker.join().unwrap()`.
* Each worker thread loops on `receiver.lock().unwrap().recv()`; the mutex
  guard is a temporary of that statement, so it is released before the
  received job runs; `Ok(job)` runs the job, `Err(_)` breaks the loop.

Two embeddings are used:

1. A structural model (`ThreadPool`, `Worker`, `PoolCreationError`) of the
   data held by the pool, with pure functions for `new`, `build`, `execute`
   and the body of `drop`.  A panic of the Rust code is modelled as `none` /
   `Except.error`.
2. An operational model (`PoolState`, `Step`, `Reachable`): a labelled small
   step semantics of the interleaved execution of submitter threads, the `n`
   worker loops and the teardown code, faithful to the mpsc channel (a FIFO
   list of job ids), the `Mutex` on the receiver (at most one holder; `recv`
   blocks while the guard is held), job panics (a faulting job unwinds the
   worker thread) and the join loop of `drop`.
-/

namespace Websvr

/-! ### Structural model of the pool data -/

/-- `pub struct PoolCreationError(String)` from `lib.rs`. -/
structure PoolCreationError where
  msg : String
  deriving Repr, DecidableEq

/-- `struct Worker { id: usize, thread: Option<JoinHandle<()>> }`.
`recvHandle` records which shared `Arc<Mutex<Receiver<Job>>>` the spawned
thread captured (all clones of one `Arc` carry the same token). -/
structure Worker where
  id : Nat
  recvHandle : Nat
  thread : Option Nat
  deriving Repr, DecidableEq

/-- `Worker::new(id, receiver)` : spawns one thread (handle present) that
captures the shared receiver. -/
def Worker.new (id : Nat) (receiver : Nat) : Worker :=
  { id := id, recvHandle := receiver, thread := some id }

/-- `pub struct ThreadPool { workers: Vec<Worker>, sender: Option<mpsc::Sender<Job>> }`. -/
structure ThreadPool where
  workers : List Worker
  sender : Option Unit
  deriving Repr, DecidableEq

/-- The pool built by the body of `ThreadPool::new` once the assertion has
passed: one channel (receiver token `0`), workers `0..n` each spawned with a
clone of the one `Arc`, sender retained. -/
def mkPool (n : Nat) : ThreadPool :=
  { workers := (List.range n).map (fun id => Worker.new id 0),
    sender := some () }

/-- `ThreadPool::new`.  `assert!(n > 0)` panics on `n = 0`, modelled as
`none`; construction returns only after the loop has pushed all `n`
workers, i.e. after all `n` threads are spawned. -/
def ThreadPool.new (n : Nat) : Option ThreadPool :=
  if n > 0 then some (mkPool n) else none

/-- `ThreadPool::build` : `if n > 0 { Ok(Self::new(n)) } else { Err(..) }`. -/
def ThreadPool.build (n : Nat) : Except PoolCreationError ThreadPool :=
  if n > 0 then .ok (mkPool n)
  else .error { msg := "n must be greater than 0" }

/-- `ThreadPool::execute` : `self.sender.as_ref().unwrap().send(job).unwrap()`.
When the sender has been revoked (`None`), `as_ref().unwrap()` panics:
modelled as `none`.  Otherwise the job enters the channel (`some job`);
`send` itself cannot fail while the workers hold the receiver. -/
def ThreadPool.execute (p : ThreadPool) (job : Nat) : Option Nat :=
  match p.sender with
  | some _ => some job
  | none => none

/-- The body of `impl Drop for ThreadPool`, as a pure function returning the
pool state it leaves behind together with the actions it performed:
whether `drop(self.sender.take())` actually dropped a sender, and the ids
of the workers whose thread handle was present and therefore joined, in
vector (= ascending id) order. -/
def dropPool (p : ThreadPool) : ThreadPool × (Bool × List Nat) :=
  ({ workers := p.workers.map (fun w => { w with thread := none }),
     sender := none },
   (p.sender.isSome,
    p.workers.filterMap (fun w => w.thread.map (fun _ => w.id))))

/-! ### Operational model

The running system: `n` worker threads executing the loop spawned in
`Worker::new`, any number of submitter threads calling `execute`, and the
teardown code of `Drop`.  Jobs are identified by the order of their
submission (`nextId` is the id the next `execute` call will enqueue). -/

/-- Status of one worker thread.
`idle` : in its loop, not running a job (before `receiver.lock()`, waiting
for the mutex, or blocked inside `recv()` on an empty open channel);
`executing j` : running `job()` for claimed job `j`;
`terminated` : broke out of the loop after `recv` returned `Err` (channel
closed and empty), thread finished cleanly;
`panicked` : `job()` panicked and the thread unwound. -/
inductive WStatus where
  | idle
  | executing (j : Nat)
  | terminated
  | panicked
  deriving Repr, DecidableEq

/-- Global state of the pool system.
`lock` is the `Mutex` around the receiver: `some w` while worker `w` owns
the guard (from `lock().unwrap()` returning until the guard temporary is
dropped at the end of the `let job = ...;` statement); `queue` is the mpsc
channel buffer, head = oldest message; `senderOpen` records whether the
`Sender` still exists (`drop` takes it); `claims` logs `(job, worker)` in
the order `recv` calls returned them; `finished` and `faulted` log jobs
whose `job()` call returned resp. panicked; `joined` counts how many
workers the `Drop` loop has joined so far (it walks the vector in id
order). -/
structure PoolState where
  n : Nat
  workers : List WStatus
  lock : Option Nat
  queue : List Nat
  senderOpen : Bool
  nextId : Nat
  claims : List (Nat × Nat)
  finished : List Nat
  faulted : List Nat
  joined : Nat
  deriving Repr, DecidableEq

/-- State right after `ThreadPool::new(n)` returns: `n` workers spawned in
their loops, channel empty and open, nothing submitted, claimed or joined. -/
def initState (n : Nat) : PoolState :=
  { n := n
    workers := List.replicate n WStatus.idle
    lock := none
    queue := []
    senderOpen := true
    nextId := 0
    claims := []
    finished := []
    faulted := []
    joined := 0 }

/-- One interleaving step of the system.  Each constructor is one atomic
action of the Rust code:

* `submit` — `execute` sends: `self.sender.as_ref().unwrap().send(job).unwrap()`
  (needs a live sender; mpsc appends to the channel FIFO);
* `acquire` — a worker's `receiver.lock().unwrap()` returns: it must be in
  its loop and the mutex free; it then sits inside `recv()` holding the
  guard (blocking there if the channel is empty but still open);
* `claim` — the guard holder's `recv()` returns `Ok(job)` with the oldest
  queued job; the guard is a temporary dropped at the end of the `let`
  statement, so the lock is released in the same step, before `job()` runs;
* `recvClosed` — the guard holder's `recv()` returns `Err`: all senders
  dropped and the channel drained; the guard is dropped, the worker breaks
  and its thread ends;
* `finish` — `job()` returns and the worker loops back;
* `fault` — `job()` panics and the worker thread unwinds;
* `closeSender` — `drop(self.sender.take())` in `Drop::drop`;
* `join` — the `Drop` loop joins the next worker in vector order; `join()`
  only returns once that thread has terminated (here: cleanly, so that
  `unwrap()` succeeds). -/
inductive Step : PoolState → PoolState → Prop where
  | submit (s : PoolState) (hs : s.senderOpen = true) :
      Step s { s with queue := s.queue ++ [s.nextId], nextId := s.nextId + 1 }
  | acquire (s : PoolState) (w : Nat)
      (hidle : s.workers[w]? = some WStatus.idle)
      (hfree : s.lock = none) :
      Step s { s with lock := some w }
  | claim (s : PoolState) (w j : Nat) (rest : List Nat)
      (hlock : s.lock = some w)
      (hidle : s.workers[w]? = some WStatus.idle)
      (hq : s.queue = j :: rest) :
      Step s { s with workers := s.workers.set w (WStatus.executing j),
                      lock := none,
                      queue := rest,
                      claims := s.claims ++ [(j, w)] }
  | recvClosed (s : PoolState) (w : Nat)
      (hlock : s.lock = some w)
      (hidle : s.workers[w]? = some WStatus.idle)
      (hq : s.queue = []) (hs : s.senderOpen = false) :
      Step s { s with workers := s.workers.set w WStatus.terminated,
                      lock := none }
  | finish (s : PoolState) (w j : Nat)
      (hexec : s.workers[w]? = some (WStatus.executing j)) :
      Step s { s with workers := s.workers.set w WStatus.idle,
                      finished := s.finished ++ [j] }
  | fault (s : PoolState) (w j : Nat)
      (hexec : s.workers[w]? = some (WStatus.executing j)) :
      Step s { s with workers := s.workers.set w WStatus.panicked,
                      faulted := s.faulted ++ [j] }
  | closeSender (s : PoolState) (hs : s.senderOpen = true) :
      Step s { s with senderOpen := false }
  | join (s : PoolState) (hs : s.senderOpen = false)
      (hlt : s.joined < s.n)
      (hterm : s.workers[s.joined]? = some WStatus.terminated) :
      Step s { s with joined := s.joined + 1 }

/-- States reachable from a freshly constructed pool of size `n`. -/
inductive Reachable (n : Nat) : PoolState → Prop where
  | init : Reachable n (initState n)
  | step {s t : PoolState} : Reachable n s → Step s t → Reachable n t

/-- Zero or more steps (used to speak about the future of a state). -/
inductive Steps : PoolState → PoolState → Prop where
  | refl (s : PoolState) : Steps s s
  | tail {s t u : PoolState} : Steps s t → Step t u → Steps s u

/-- The job a worker in the given status is running, if any. -/
def statusJob : WStatus → Option Nat
  | WStatus.executing j => some j
  | _ => none

/-- The jobs currently being executed, one entry per worker in `executing`. -/
def execJobs (s : PoolState) : List Nat :=
  s.workers.filterMap statusJob

/-! ### List helpers -/

/-- A list with `a` at position `w` splits as `t ++ a :: d` with `|t| = w`. -/
theorem getElem?_split {α : Type} {l : List α} {w : Nat} {a : α}
    (h : l[w]? = some a) : ∃ t d, l = t ++ a :: d ∧ t.length = w := by
  induction l generalizing w with
  | nil => simp at h
  | cons x xs ih =>
    cases w with
    | zero =>
      simp only [List.getElem?_cons_zero, Option.some.injEq] at h
      exact ⟨[], xs, by simp [h], rfl⟩
    | succ v =>
      simp only [List.getElem?_cons_succ] at h
      obtain ⟨t, d, rfl, rfl⟩ := ih h
      exact ⟨x :: t, d, rfl, rfl⟩

/-- Updating the distinguished position of a split list. -/
theorem set_middle {α : Type} (t d : List α) (a b : α) :
    (t ++ a :: d).set t.length b = t ++ b :: d := by
  induction t with
  | nil => rfl
  | cons x xs ih => simp [List.set, ih]

/-- `filterMap` over a split list. -/
theorem filterMap_middle {α β : Type} (f : α → Option β) (t d : List α) (a : α) :
    List.filterMap f (t ++ a :: d) =
      List.filterMap f t ++ (f a).toList ++ List.filterMap f d := by
  rw [List.filterMap_append, List.filterMap_cons]
  cases f a <;> simp

/-- A position holding a value is within bounds. -/
theorem lt_length_of_getElem? {α : Type} {l : List α} {w : Nat} {a : α}
    (h : l[w]? = some a) : w < l.length := by
  rcases Nat.lt_or_ge w l.length with hlt | hge
  · exact hlt
  · rw [List.getElem?_eq_none hge] at h; cases h

/-- Effect of a one-position update on the element counts of a `filterMap`. -/
theorem count_filterMap_set {α β : Type} [BEq β] (f : α → Option β)
    {l : List α} {w : Nat} {a : α} (h : l[w]? = some a) (b : α) (c : β) :
    (List.filterMap f (l.set w b)).count c + ((f a).toList.count c)
      = (List.filterMap f l).count c + ((f b).toList.count c) := by
  obtain ⟨t, d, rfl, hlen⟩ := getElem?_split h
  subst hlen
  rw [set_middle, filterMap_middle, filterMap_middle]
  simp only [List.count_append]
  omega

/-- If an update writes a status other than `c`, any position still showing
`c` already showed it before the update. -/
theorem set_preserves_status {l : List WStatus} {w v : Nat} {b c : WStatus}
    (hv : (l.set w b)[v]? = some c) (hb : b ≠ c) : l[v]? = some c := by
  rw [List.getElem?_set] at hv
  split at hv
  · split at hv
    · exact absurd (Option.some.inj hv) hb
    · cases hv
  · exact hv

/-! ### The inductive invariant -/

/-- Inductive invariant of the pool system.

* `wlen` — the workers vector keeps its `n` slots;
* `subm` — channel accounting: the jobs claimed so far (in claim order)
  followed by the jobs still queued are exactly the jobs submitted so far,
  in submission order;
* `runs` — execution accounting: every claimed job is counted exactly once
  among finished jobs, faulted jobs and jobs currently being executed;
* `termAbsorb` — a worker only terminates after the sender is gone and the
  channel drained, and both conditions are permanent;
* `lockIdle` — the receiver mutex is only ever held by a worker sitting in
  `recv`, i.e. an `idle` one;
* `joinLe`, `joinTerm` — the `Drop` loop has joined a prefix of the workers
  vector, and each joined worker's thread had terminated cleanly;
* `joinClosed` — joining only starts after the sender was taken;
* `faultPan` — a faulted job leaves behind a panicked worker thread. -/
structure Inv (s : PoolState) : Prop where
  wlen : s.workers.length = s.n
  subm : s.claims.map Prod.fst ++ s.queue = List.range s.nextId
  runs : ∀ c : Nat, s.finished.count c + s.faulted.count c + (execJobs s).count c
          = (s.claims.map Prod.fst).count c
  termAbsorb : ∀ w : Nat, s.workers[w]? = some WStatus.terminated →
          s.senderOpen = false ∧ s.queue = []
  lockIdle : ∀ w : Nat, s.lock = some w → s.workers[w]? = some WStatus.idle
  joinLe : s.joined ≤ s.n
  joinTerm : ∀ w : Nat, w < s.joined → s.workers[w]? = some WStatus.terminated
  joinClosed : 0 < s.joined → s.senderOpen = false
  faultPan : s.faulted ≠ [] → ∃ w : Nat, s.workers[w]? = some WStatus.panicked

theorem inv_init (n : Nat) : Inv (initState n) := by
  refine ⟨?_, ?_, ?_, ?_, ?_, ?_, ?_, ?_, ?_⟩
  · simp [initState]
  · simp [initState]
  · intro c
    simp [initState, execJobs, List.filterMap_replicate, statusJob]
  · intro w h
    simp only [initState, List.getElem?_replicate] at h
    split at h <;> simp_all
  · simp [initState]
  · simp [initState]
  · simp [initState]
  · simp [initState]
  · simp [initState]

/-- Every step of the system preserves the invariant. -/
theorem inv_step {s t : PoolState} (inv : Inv s) (st : Step s t) : Inv t := by
  cases st with
  | submit hs =>
    refine ⟨inv.wlen, ?_, inv.runs, ?_, inv.lockIdle, inv.joinLe, inv.joinTerm,
      inv.joinClosed, inv.faultPan⟩
    · show s.claims.map Prod.fst ++ (s.queue ++ [s.nextId]) = List.range (s.nextId + 1)
      rw [← List.append_assoc, inv.subm, List.range_succ]
    · intro v hv
      have := (inv.termAbsorb v hv).1
      rw [hs] at this
      cases this
  | acquire w hidle hfree =>
    refine ⟨inv.wlen, inv.subm, inv.runs, inv.termAbsorb, ?_, inv.joinLe,
      inv.joinTerm, inv.joinClosed, inv.faultPan⟩
    intro v hv
    have hwv : w = v := Option.some.inj hv
    exact hwv ▸ hidle
  | claim w j rest hlock hidle hq =>
    refine ⟨?_, ?_, ?_, ?_, ?_, inv.joinLe, ?_, inv.joinClosed, ?_⟩
    · show (s.workers.set w (WStatus.executing j)).length = s.n
      rw [List.length_set]; exact inv.wlen
    · show (s.claims ++ [(j, w)]).map Prod.fst ++ rest = List.range s.nextId
      rw [List.map_append]
      simp only [List.map_cons, List.map_nil, List.append_assoc, List.singleton_append]
      rw [show ((j, w).1 : Nat) :: rest = s.queue from (hq ▸ rfl), inv.subm]
    · intro c
      have h1 := inv.runs c
      have h2 := count_filterMap_set statusJob hidle (WStatus.executing j) c
      show s.finished.count c + s.faulted.count c
          + (execJobs { s with workers := s.workers.set w (WStatus.executing j),
                               lock := none, queue := rest,
                               claims := s.claims ++ [(j, w)] }).count c
          = ((s.claims ++ [(j, w)]).map Prod.fst).count c
      simp only [execJobs] at h1 ⊢
      simp only [statusJob, Option.toList, List.count_nil] at h2
      rw [List.map_append, List.count_append]
      simp only [List.map_cons, List.map_nil]
      omega
    · intro v hv
      have hold := set_preserves_status hv (by simp)
      have h2 := (inv.termAbsorb v hold).2
      rw [hq] at h2
      cases h2
    · intro v hv
      cases hv
    · intro v hvlt
      have hterm := inv.joinTerm v hvlt
      have hne : w ≠ v := by
        rintro rfl
        rw [hidle] at hterm
        cases hterm
      show (s.workers.set w (WStatus.executing j))[v]? = some WStatus.terminated
      rw [List.getElem?_set_ne hne]
      exact hterm
    · intro hne
      obtain ⟨v, hv⟩ := inv.faultPan hne
      have hwv : w ≠ v := by
        rintro rfl
        rw [hidle] at hv
        cases hv
      exact ⟨v, by
        show (s.workers.set w (WStatus.executing j))[v]? = some WStatus.panicked
        rw [List.getElem?_set_ne hwv]; exact hv⟩
  | recvClosed w hlock hidle hq hs =>
    refine ⟨?_, inv.subm, ?_, ?_, ?_, inv.joinLe, ?_, inv.joinClosed, ?_⟩
    · show (s.workers.set w WStatus.terminated).length = s.n
      rw [List.length_set]; exact inv.wlen
    · intro c
      have h1 := inv.runs c
      have h2 := count_filterMap_set statusJob hidle WStatus.terminated c
      show s.finished.count c + s.faulted.count c
          + (execJobs { s with workers := s.workers.set w WStatus.terminated,
                               lock := none }).count c
          = (s.claims.map Prod.fst).count c
      simp only [execJobs] at h1 ⊢
      simp only [statusJob, Option.toList, List.count_nil] at h2
      omega
    · intro v _
      exact ⟨hs, hq⟩
    · intro v hv
      cases hv
    · intro v hvlt
      have hterm := inv.joinTerm v hvlt
      by_cases hwv : w = v
      · subst hwv
        show (s.workers.set w WStatus.terminated)[w]? = some WStatus.terminated
        rw [List.getElem?_set_self (lt_length_of_getElem? hidle)]
      · show (s.workers.set w WStatus.terminated)[v]? = some WStatus.terminated
        rw [List.getElem?_set_ne hwv]
        exact hterm
    · intro hne
      obtain ⟨v, hv⟩ := inv.faultPan hne
      have hwv : w ≠ v := by
        rintro rfl
        rw [hidle] at hv
        cases hv
      exact ⟨v, by
        show (s.workers.set w WStatus.terminated)[v]? = some WStatus.panicked
        rw [List.getElem?_set_ne hwv]; exact hv⟩
  | finish w j hexec =>
    refine ⟨?_, inv.subm, ?_, ?_, ?_, inv.joinLe, ?_, inv.joinClosed, ?_⟩
    · show (s.workers.set w WStatus.idle).length = s.n
      rw [List.length_set]; exact inv.wlen
    · intro c
      have h1 := inv.runs c
      have h2 := count_filterMap_set statusJob hexec WStatus.idle c
      show (s.finished ++ [j]).count c + s.faulted.count c
          + (execJobs { s with workers := s.workers.set w WStatus.idle,
                               finished := s.finished ++ [j] }).count c
          = (s.claims.map Prod.fst).count c
      simp only [execJobs] at h1 ⊢
      simp only [statusJob, Option.toList, List.count_nil] at h2
      rw [List.count_append]
      omega
    · intro v hv
      exact inv.termAbsorb v (set_preserves_status hv (by simp))
    · intro v hv
      have hold := inv.lockIdle v hv
      have hwv : w ≠ v := by
        rintro rfl
        rw [hexec] at hold
        cases hold
      show (s.workers.set w WStatus.idle)[v]? = some WStatus.idle
      rw [List.getElem?_set_ne hwv]
      exact hold
    · intro v hvlt
      have hterm := inv.joinTerm v hvlt
      have hwv : w ≠ v := by
        rintro rfl
        rw [hexec] at hterm
        cases hterm
      show (s.workers.set w WStatus.idle)[v]? = some WStatus.terminated
      rw [List.getElem?_set_ne hwv]
      exact hterm
    · intro hne
      obtain ⟨v, hv⟩ := inv.faultPan (by
        intro hcon
        exact hne (by simp [hcon]))
      have hwv : w ≠ v := by
        rintro rfl
        rw [hexec] at hv
        cases hv
      exact ⟨v, by
        show (s.workers.set w WStatus.idle)[v]? = some WStatus.panicked
        rw [List.getElem?_set_ne hwv]; exact hv⟩
  | fault w j hexec =>
    refine ⟨?_, inv.subm, ?_, ?_, ?_, inv.joinLe, ?_, inv.joinClosed, ?_⟩
    · show (s.workers.set w WStatus.panicked).length = s.n
      rw [List.length_set]; exact inv.wlen
    · intro c
      have h1 := inv.runs c
      have h2 := count_filterMap_set statusJob hexec WStatus.panicked c
      show s.finished.count c + (s.faulted ++ [j]).count c
          + (execJobs { s with workers := s.workers.set w WStatus.panicked,
                               faulted := s.faulted ++ [j] }).count c
          = (s.claims.map Prod.fst).count c
      simp only [execJobs] at h1 ⊢
      simp only [statusJob, Option.toList, List.count_nil] at h2
      rw [List.count_append]
      omega
    · intro v hv
      exact inv.termAbsorb v (set_preserves_status hv (by simp))
    · intro v hv
      have hold := inv.lockIdle v hv
      have hwv : w ≠ v := by
        rintro rfl
        rw [hexec] at hold
        cases hold
      show (s.workers.set w WStatus.panicked)[v]? = some WStatus.idle
      rw [List.getElem?_set_ne hwv]
      exact hold
    · intro v hvlt
      have hterm := inv.joinTerm v hvlt
      have hwv : w ≠ v := by
        rintro rfl
        rw [hexec] at hterm
        cases hterm
      show (s.workers.set w WStatus.panicked)[v]? = some WStatus.terminated
      rw [List.getElem?_set_ne hwv]
      exact hterm
    · intro _
      exact ⟨w, by
        show (s.workers.set w WStatus.panicked)[w]? = some WStatus.panicked
        rw [List.getElem?_set_self (lt_length_of_getElem? hexec)]⟩
  | closeSender hs =>
    refine ⟨inv.wlen, inv.subm, inv.runs, ?_, inv.lockIdle, inv.joinLe,
      inv.joinTerm, ?_, inv.faultPan⟩
    · intro v hv
      exact ⟨rfl, (inv.termAbsorb v hv).2⟩
    · intro _
      rfl
  | join hs hlt hterm =>
    refine ⟨inv.wlen, inv.subm, inv.runs, inv.termAbsorb, inv.lockIdle, hlt, ?_, ?_,
      inv.faultPan⟩
    · intro v hvlt
      rcases Nat.lt_succ_iff_lt_or_eq.mp hvlt with h | rfl
      · exact inv.joinTerm v h
      · exact hterm
    · intro _
      exact hs

/-- Every reachable state satisfies the invariant, and remembers `n`. -/
theorem reachable_inv {n : Nat} {s : PoolState} (h : Reachable n s) :
    Inv s ∧ s.n = n := by
  induction h with
  | init => exact ⟨inv_init n, rfl⟩
  | step _ st ih =>
    refine ⟨inv_step ih.1 st, ?_⟩
    cases st <;> simpa using ih.2

/-! ### Consequences of the step relation -/

/-- A worker whose thread has unwound stays panicked: no transition of the
system restarts it. -/
theorem step_panicked {s t : PoolState} {v : Nat} (st : Step s t)
    (h : s.workers[v]? = some WStatus.panicked) :
    t.workers[v]? = some WStatus.panicked := by
  cases st with
  | submit hs => exact h
  | acquire w hidle hfree => exact h
  | claim w j rest hlock hidle hq =>
    have hne : w ≠ v := by
      rintro rfl
      rw [h] at hidle
      cases hidle
    show (s.workers.set w (WStatus.executing j))[v]? = some WStatus.panicked
    rw [List.getElem?_set_ne hne]
    exact h
  | recvClosed w hlock hidle hq hs =>
    have hne : w ≠ v := by
      rintro rfl
      rw [h] at hidle
      cases hidle
    show (s.workers.set w WStatus.terminated)[v]? = some WStatus.panicked
    rw [List.getElem?_set_ne hne]
    exact h
  | finish w j hexec =>
    have hne : w ≠ v := by
      rintro rfl
      rw [h] at hexec
      cases hexec
    show (s.workers.set w WStatus.idle)[v]? = some WStatus.panicked
    rw [List.getElem?_set_ne hne]
    exact h
  | fault w j hexec =>
    have hne : w ≠ v := by
      rintro rfl
      rw [h] at hexec
      cases hexec
    show (s.workers.set w WStatus.panicked)[v]? = some WStatus.panicked
    rw [List.getElem?_set_ne hne]
    exact h
  | closeSender hs => exact h
  | join hs hlt hterm => exact h

/-- `step_panicked`, lifted to any number of steps. -/
theorem steps_panicked {s t : PoolState} {v : Nat} (sts : Steps s t)
    (h : s.workers[v]? = some WStatus.panicked) :
    t.workers[v]? = some WStatus.panicked := by
  induction sts with
  | refl => exact h
  | tail _ st ih => exact step_panicked st ih

/-- Running further steps from a reachable state stays reachable. -/
theorem reachable_steps {n : Nat} {s t : PoolState} (h : Reachable n s)
    (sts : Steps s t) : Reachable n t := by
  induction sts with
  | refl => exact h
  | tail _ st ih => exact Reachable.step ih st

/-! ### Concrete runs (used to instantiate the theorems below) -/

/-- End state of a run of a 2-worker pool: jobs `0` and `1` submitted in that
order, claimed in that order by workers `0` and `1`, but finished in the
opposite order. -/
def traceEnd : PoolState :=
  { n := 2, workers := [WStatus.idle, WStatus.idle], lock := none, queue := [],
    senderOpen := true, nextId := 2, claims := [(0, 0), (1, 1)],
    finished := [1, 0], faulted := [], joined := 0 }

theorem traceEnd_reachable : Reachable 2 traceEnd := by
  have h0 : Reachable 2 (initState 2) := Reachable.init
  have h1 := Reachable.step h0 (Step.submit _ rfl)
  have h2 := Reachable.step h1 (Step.submit _ rfl)
  have h3 := Reachable.step h2 (Step.acquire _ 0 rfl rfl)
  have h4 := Reachable.step h3 (Step.claim _ 0 0 [1] rfl rfl rfl)
  have h5 := Reachable.step h4 (Step.acquire _ 1 rfl rfl)
  have h6 := Reachable.step h5 (Step.claim _ 1 1 [] rfl rfl rfl)
  have h7 := Reachable.step h6 (Step.finish _ 1 1 rfl)
  have h8 := Reachable.step h7 (Step.finish _ 0 0 rfl)
  exact h8

/-- A 2-worker pool caught while worker `0` executes job `0` and job `1` is
still queued, worker `1` idle. -/
def midState : PoolState :=
  { n := 2, workers := [WStatus.executing 0, WStatus.idle], lock := none,
    queue := [1], senderOpen := true, nextId := 2, claims := [(0, 0)],
    finished := [], faulted := [], joined := 0 }

theorem midState_reachable : Reachable 2 midState := by
  have h0 : Reachable 2 (initState 2) := Reachable.init
  have h1 := Reachable.step h0 (Step.submit _ rfl)
  have h2 := Reachable.step h1 (Step.submit _ rfl)
  have h3 := Reachable.step h2 (Step.acquire _ 0 rfl rfl)
  have h4 := Reachable.step h3 (Step.claim _ 0 0 [1] rfl rfl rfl)
  exact h4

/-- End state of a complete run of a 1-worker pool: one job submitted and
finished, sender revoked, the worker observed the closed empty channel and
was joined. -/
def tdEnd : PoolState :=
  { n := 1, workers := [WStatus.terminated], lock := none, queue := [],
    senderOpen := false, nextId := 1, claims := [(0, 0)], finished := [0],
    faulted := [], joined := 1 }

theorem tdEnd_reachable : Reachable 1 tdEnd := by
  have h0 : Reachable 1 (initState 1) := Reachable.init
  have h1 := Reachable.step h0 (Step.submit _ rfl)
  have h2 := Reachable.step h1 (Step.acquire _ 0 rfl rfl)
  have h3 := Reachable.step h2 (Step.claim _ 0 0 [] rfl rfl rfl)
  have h4 := Reachable.step h3 (Step.finish _ 0 0 rfl)
  have h5 := Reachable.step h4 (Step.closeSender _ rfl)
  have h6 := Reachable.step h5 (Step.acquire _ 0 rfl rfl)
  have h7 := Reachable.step h6 (Step.recvClosed _ 0 rfl rfl rfl rfl)
  have h8 := Reachable.step h7 (Step.join _ rfl (by decide) rfl)
  exact h8

/-! ### Claim theorems -/

/-- **C1.** In every reachable state of the system — under any interleaving
of submitters and the `n` workers — delivery is exact: (i) no job appears
twice in the claim log (no duplication); (ii) the claimed jobs followed by
the still-queued jobs are exactly the submitted jobs, so nothing is lost or
silently dropped and only submitted jobs are delivered; (iii) each job is
delivered to at most one worker; (iv) each claimed job is run exactly as
often as it was claimed — i.e. exactly once — counting finished, faulted
and in-flight executions. -/
theorem delivery_exactly_once {n : Nat} {s : PoolState} (h : Reachable n s) :
    (s.claims.map Prod.fst).Nodup
    ∧ s.claims.map Prod.fst ++ s.queue = List.range s.nextId
    ∧ (∀ j w w', (j, w) ∈ s.claims → (j, w') ∈ s.claims → w = w')
    ∧ (∀ c : Nat, s.finished.count c + s.faulted.count c + (execJobs s).count c
        = (s.claims.map Prod.fst).count c) := by
  obtain ⟨inv, -⟩ := reachable_inv h
  have hnd : (s.claims.map Prod.fst).Nodup := by
    have hr : ((s.claims.map Prod.fst) ++ s.queue).Nodup :=
      inv.subm ▸ List.nodup_range s.nextId
    exact hr.of_append_left
  refine ⟨hnd, inv.subm, ?_, inv.runs⟩
  intro j w w' hw hw'
  have hpair : (j, w) = (j, w') :=
    List.inj_on_of_nodup_map hnd hw hw' rfl
  exact congrArg Prod.snd hpair

theorem delivery_exactly_once_witness :
    (traceEnd.claims.map Prod.fst).Nodup
    ∧ traceEnd.claims.map Prod.fst ++ traceEnd.queue = List.range traceEnd.nextId
    ∧ (∀ j w w', (j, w) ∈ traceEnd.claims → (j, w') ∈ traceEnd.claims → w = w')
    ∧ (∀ c : Nat, traceEnd.finished.count c + traceEnd.faulted.count c
        + (execJobs traceEnd).count c
        = (traceEnd.claims.map Prod.fst).count c) :=
  delivery_exactly_once traceEnd_reachable

/-- **C3.** FIFO claim order: in every reachable state the claim log lists
the jobs in exactly ascending submission order (`0, 1, 2, …`), so a job
submitted strictly earlier is claimed strictly earlier; and completion
order is NOT constrained: a concrete 2-worker run reaches a state whose
claims are in order `[0, 1]` but whose completions are `[1, 0]`. -/
theorem fifo_claim_order {n : Nat} {s : PoolState} (h : Reachable n s) :
    s.claims.map Prod.fst = List.range s.claims.length
    ∧ (∀ (iA iB : Nat) (cA cB : Nat × Nat), s.claims[iA]? = some cA → s.claims[iB]? = some cB →
        cA.1 < cB.1 → iA < iB)
    ∧ (∃ u : PoolState, Reachable 2 u ∧ u.claims.map Prod.fst = [0, 1]
        ∧ u.finished = [1, 0]) := by
  obtain ⟨inv, -⟩ := reachable_inv h
  have hlen : s.claims.length + s.queue.length = s.nextId := by
    have := congrArg List.length inv.subm
    simpa using this
  have hpref : s.claims.map Prod.fst = List.range s.claims.length := by
    have htake := congrArg (List.take (s.claims.map Prod.fst).length) inv.subm
    rw [List.take_left] at htake
    rw [htake, List.take_range, List.length_map]
    congr 1
    omega
  refine ⟨hpref, ?_, traceEnd, traceEnd_reachable, rfl, rfl⟩
  intro iA iB cA cB hA hB hlt
  have hidx : ∀ (i : Nat) (c : Nat × Nat), s.claims[i]? = some c → c.1 = i := by
    intro i c hc
    have hm : (s.claims.map Prod.fst)[i]? = some c.1 := by
      rw [List.getElem?_map, hc]
      rfl
    rw [hpref] at hm
    have hi : i < s.claims.length := by
      have := lt_length_of_getElem? hm
      simpa using this
    rw [List.getElem?_range hi] at hm
    exact (Option.some.inj hm).symm
  rw [hidx iA cA hA, hidx iB cB hB] at hlt
  exact hlt

theorem fifo_claim_order_witness :
    tdEnd.claims.map Prod.fst = List.range tdEnd.claims.length
    ∧ (∀ (iA iB : Nat) (cA cB : Nat × Nat), tdEnd.claims[iA]? = some cA → tdEnd.claims[iB]? = some cB →
        cA.1 < cB.1 → iA < iB)
    ∧ (∃ u : PoolState, Reachable 2 u ∧ u.claims.map Prod.fst = [0, 1]
        ∧ u.finished = [1, 0]) :=
  fifo_claim_order tdEnd_reachable

/-- **C6.** In every reachable state the receiver mutex, when held at all,
is held by a worker still sitting in `recv` (status `idle`); hence no
worker is ever executing a job while holding the lock.  The lock is taken
by `acquire`, kept only across the `recv` of a single claim, and given
back in the very `claim`/`recvClosed` step that ends that `recv`, before
the job body runs — so one job's execution never blocks other workers
from claiming. -/
theorem lock_never_held_while_executing {n : Nat} {s : PoolState}
    (h : Reachable n s) :
    (∀ w, s.lock = some w → s.workers[w]? = some WStatus.idle)
    ∧ (∀ w j, s.workers[w]? = some (WStatus.executing j) → s.lock ≠ some w) := by
  obtain ⟨inv, -⟩ := reachable_inv h
  refine ⟨inv.lockIdle, ?_⟩
  intro w j hexec hlock
  have := inv.lockIdle w hlock
  rw [hexec] at this
  cases this

theorem lock_never_held_while_executing_witness :
    (∀ w, midState.lock = some w → midState.workers[w]? = some WStatus.idle)
    ∧ (∀ w j, midState.workers[w]? = some (WStatus.executing j) →
        midState.lock ≠ some w) :=
  lock_never_held_while_executing midState_reachable

/-- **C2.** Teardown semantics, in every reachable state of a pool of
positive size `n`:

1. (join order and phase order) whenever a step changes the join counter,
   the producing side of the channel was already revoked before the step,
   exactly the next worker id in ascending order is joined, and that
   worker's thread had already terminated — the join blocks until then;
2. (teardown does not return early) once every worker is joined
   (`s.joined = n`, i.e. the `Drop` loop — and with it teardown — has
   completed), the sender is revoked, the queue has been fully drained,
   every worker thread is terminated, and every job ever submitted —
   including those still queued when teardown began — is in the finished
   log. -/
theorem teardown_joins_in_order_after_drain {n : Nat} {s : PoolState}
    (h : Reachable n s) (hn : 0 < n) :
    (∀ t : PoolState, Step s t → t.joined ≠ s.joined →
        s.senderOpen = false ∧ t.joined = s.joined + 1
          ∧ s.workers[s.joined]? = some WStatus.terminated)
    ∧ (s.joined = n →
        s.senderOpen = false ∧ s.queue = []
          ∧ (∀ w, w < n → s.workers[w]? = some WStatus.terminated)
          ∧ (∀ j, j < s.nextId → j ∈ s.finished)) := by
  obtain ⟨inv, hne⟩ := reachable_inv h
  constructor
  · intro t st hj
    cases st with
    | submit hs => exact absurd rfl hj
    | acquire w hidle hfree => exact absurd rfl hj
    | claim w j rest hlock hidle hq => exact absurd rfl hj
    | recvClosed w hlock hidle hq hs => exact absurd rfl hj
    | finish w j hexec => exact absurd rfl hj
    | fault w j hexec => exact absurd rfl hj
    | closeSender hs => exact absurd rfl hj
    | join hs hlt hterm => exact ⟨hs, rfl, hterm⟩
  · intro hdone
    have hterm : ∀ w, w < n → s.workers[w]? = some WStatus.terminated := by
      intro w hw
      exact inv.joinTerm w (by omega)
    have hterm0 := hterm 0 hn
    obtain ⟨hclosed, hqnil⟩ := inv.termAbsorb 0 hterm0
    refine ⟨hclosed, hqnil, hterm, ?_⟩
    have hclaims : s.claims.map Prod.fst = List.range s.nextId := by
      have := inv.subm
      rw [hqnil, List.append_nil] at this
      exact this
    have hexecnil : execJobs s = [] := by
      rw [execJobs, List.filterMap_eq_nil_iff]
      intro a ha
      obtain ⟨i, hi⟩ := List.mem_iff_getElem?.mp ha
      have hilt : i < n := by
        have := lt_length_of_getElem? hi
        rw [inv.wlen, hne] at this
        exact this
      rw [hterm i hilt] at hi
      rw [← Option.some.inj hi]
      rfl
    have hfaultnil : s.faulted = [] := by
      by_contra hcon
      obtain ⟨w, hw⟩ := inv.faultPan hcon
      have hwlt : w < n := by
        have := lt_length_of_getElem? hw
        rw [inv.wlen, hne] at this
        exact this
      rw [hterm w hwlt] at hw
      cases hw
    intro j hj
    have hcount := inv.runs j
    rw [hexecnil, hfaultnil, hclaims] at hcount
    have hmem : j ∈ List.range s.nextId := List.mem_range.mpr hj
    have hpos : 0 < (List.range s.nextId).count j := List.count_pos_iff.mpr hmem
    have : 0 < s.finished.count j := by
      simp only [List.count_nil] at hcount
      omega
    exact List.count_pos_iff.mp this

theorem teardown_joins_in_order_after_drain_witness :
    (∀ t : PoolState, Step tdEnd t → t.joined ≠ tdEnd.joined →
        tdEnd.senderOpen = false ∧ t.joined = tdEnd.joined + 1
          ∧ tdEnd.workers[tdEnd.joined]? = some WStatus.terminated)
    ∧ (tdEnd.joined = 1 →
        tdEnd.senderOpen = false ∧ tdEnd.queue = []
          ∧ (∀ w, w < 1 → tdEnd.workers[w]? = some WStatus.terminated)
          ∧ (∀ j, j < tdEnd.nextId → j ∈ tdEnd.finished)) :=
  teardown_joins_in_order_after_drain tdEnd_reachable (by decide)

/-- **C9.** A job that panics is neither caught nor retried: whenever a
reachable state has worker `w` executing job `j`, (1) the panic of `j` is a
possible step of the system, after which `w` is `panicked`; (2) that step
touches nothing but worker `w` and the faulted log — every other worker's
status, the lock, the queue and the sender are untouched; (3) from the
post-panic state, worker `w` is `panicked` in every future state — it
never executes again, so capacity is permanently reduced by one; (4) the
other workers continue: any other idle worker can still go on to claim the
next queued job. -/
theorem job_panic_kills_only_its_worker {n : Nat} {s : PoolState} {w j : Nat}
    (_h : Reachable n s) (hexec : s.workers[w]? = some (WStatus.executing j)) :
    Step s { s with workers := s.workers.set w WStatus.panicked,
                    faulted := s.faulted ++ [j] }
    ∧ (∀ v, v ≠ w → (s.workers.set w WStatus.panicked)[v]? = s.workers[v]?)
    ∧ (∀ t : PoolState,
        Steps { s with workers := s.workers.set w WStatus.panicked,
                       faulted := s.faulted ++ [j] } t →
        t.workers[w]? = some WStatus.panicked
          ∧ ∀ i, t.workers[w]? ≠ some (WStatus.executing i))
    ∧ (∀ v j' rest, v ≠ w → s.workers[v]? = some WStatus.idle →
        s.lock = none → s.queue = j' :: rest →
        ∃ u : PoolState,
          Steps { s with workers := s.workers.set w WStatus.panicked,
                         faulted := s.faulted ++ [j] } u
            ∧ u.claims = s.claims ++ [(j', v)]) := by
  refine ⟨Step.fault s w j hexec, ?_, ?_, ?_⟩
  · intro v hv
    exact List.getElem?_set_ne (fun hwv => hv hwv.symm)
  · intro t hsteps
    have hstart : (s.workers.set w WStatus.panicked)[w]? = some WStatus.panicked :=
      List.getElem?_set_self (lt_length_of_getElem? hexec)
    have hpan := steps_panicked hsteps hstart
    refine ⟨hpan, ?_⟩
    intro i hcon
    rw [hpan] at hcon
    cases hcon
  · intro v j' rest hv hvidle hlock hq
    have hvidle' : (s.workers.set w WStatus.panicked)[v]? = some WStatus.idle := by
      rw [List.getElem?_set_ne (fun hwv => hv hwv.symm)]
      exact hvidle
    refine ⟨_, Steps.tail (Steps.tail (Steps.refl _)
      (Step.acquire _ v hvidle' hlock))
      (Step.claim _ v j' rest rfl hvidle' hq), rfl⟩

theorem job_panic_kills_only_its_worker_witness :
    Step midState { midState with
                    workers := midState.workers.set 0 WStatus.panicked,
                    faulted := midState.faulted ++ [0] }
    ∧ (∀ v, v ≠ 0 →
        (midState.workers.set 0 WStatus.panicked)[v]? = midState.workers[v]?)
    ∧ (∀ t : PoolState,
        Steps { midState with
                workers := midState.workers.set 0 WStatus.panicked,
                faulted := midState.faulted ++ [0] } t →
        t.workers[0]? = some WStatus.panicked
          ∧ ∀ i, t.workers[0]? ≠ some (WStatus.executing i))
    ∧ (∀ v j' rest, v ≠ 0 → midState.workers[v]? = some WStatus.idle →
        midState.lock = none → midState.queue = j' :: rest →
        ∃ u : PoolState,
          Steps { midState with
                  workers := midState.workers.set 0 WStatus.panicked,
                  faulted := midState.faulted ++ [0] } u
            ∧ u.claims = midState.claims ++ [(j', v)]) :=
  job_panic_kills_only_its_worker midState_reachable rfl

/-! ### The join loop of `Drop` against thread outcomes -/

/-- How one worker thread eventually ends: `clean` if its loop broke out
normally, `panicked` if a job made it unwind. -/
inductive ThreadOutcome where
  | clean
  | panicked
  deriving Repr, DecidableEq

/-- The `for worker in &mut self.workers { .. worker.join().unwrap() }` loop
of `Drop::drop`, run over the (eventual) outcomes of the worker threads
from index `i` on: `join()` blocks until the thread is done, returns `Err`
for a panicked thread, and the `unwrap()` then panics inside `drop`,
modelled as `Except.error` carrying the id of the offending worker; the
workers after it are never joined. -/
def joinAllFrom (i : Nat) : List ThreadOutcome → Except Nat Unit
  | [] => Except.ok ()
  | ThreadOutcome.clean :: rest => joinAllFrom (i + 1) rest
  | ThreadOutcome.panicked :: _ => Except.error i

theorem joinAllFrom_ok_iff (outs : List ThreadOutcome) :
    ∀ i : Nat, (joinAllFrom i outs = Except.ok () ↔
      ∀ o ∈ outs, o = ThreadOutcome.clean) := by
  induction outs with
  | nil => intro i; simp [joinAllFrom]
  | cons o rest ih =>
    intro i
    cases o with
    | clean => simp [joinAllFrom, ih (i + 1)]
    | panicked => simp [joinAllFrom]

theorem joinAllFrom_error (outs : List ThreadOutcome) :
    ∀ (i w : Nat), outs[w]? = some ThreadOutcome.panicked →
      (∀ k, k < w → outs[k]? = some ThreadOutcome.clean) →
      joinAllFrom i outs = Except.error (i + w) := by
  induction outs with
  | nil => intro i w hw _; simp at hw
  | cons o rest ih =>
    intro i w hw hmin
    cases w with
    | zero =>
      simp only [List.getElem?_cons_zero, Option.some.injEq] at hw
      subst hw
      rfl
    | succ v =>
      have h0 := hmin 0 (Nat.succ_pos v)
      simp only [List.getElem?_cons_zero, Option.some.injEq] at h0
      subst h0
      simp only [List.getElem?_cons_succ] at hw
      have hrest := ih (i + 1) v hw (fun k hk => by
        have := hmin (k + 1) (Nat.succ_lt_succ hk)
        simpa using this)
      rw [show i + 1 + v = i + (v + 1) by omega] at hrest
      exact hrest

/-- **C10.** If worker `w` is the first whose thread ended abnormally, the
join loop of `Drop::drop` panics at the unwrapped join of worker `w`
(`Except.error w`) instead of completing the remaining joins; the loop —
and hence teardown — completes normally iff every worker thread exited
cleanly; and in the operational model a panicked worker `w` can never be
passed by the join counter, so teardown never completes past it. -/
theorem teardown_panics_on_abnormal_worker (outs : List ThreadOutcome) (w : Nat)
    (hw : outs[w]? = some ThreadOutcome.panicked)
    (hmin : ∀ k, k < w → outs[k]? = some ThreadOutcome.clean) :
    joinAllFrom 0 outs = Except.error w
    ∧ (∀ outs2 : List ThreadOutcome,
        joinAllFrom 0 outs2 = Except.ok () ↔ ∀ o ∈ outs2, o = ThreadOutcome.clean)
    ∧ (∀ (n : Nat) (s : PoolState), Reachable n s →
        s.workers[w]? = some WStatus.panicked → s.joined ≤ w) := by
  refine ⟨?_, fun outs2 => joinAllFrom_ok_iff outs2 0, ?_⟩
  · have := joinAllFrom_error outs 0 w hw hmin
    simpa using this
  · intro n s h hpan
    obtain ⟨inv, -⟩ := reachable_inv h
    by_contra hcon
    have hlt : w < s.joined := by omega
    have := inv.joinTerm w hlt
    rw [hpan] at this
    cases this

theorem teardown_panics_on_abnormal_worker_witness :
    joinAllFrom 0 [ThreadOutcome.clean, ThreadOutcome.panicked] = Except.error 1
    ∧ (∀ outs2 : List ThreadOutcome,
        joinAllFrom 0 outs2 = Except.ok () ↔ ∀ o ∈ outs2, o = ThreadOutcome.clean)
    ∧ (∀ (n : Nat) (s : PoolState), Reachable n s →
        s.workers[1]? = some WStatus.panicked → s.joined ≤ 1) :=
  teardown_panics_on_abnormal_worker [ThreadOutcome.clean, ThreadOutcome.panicked] 1
    rfl
    (fun k hk => by
      have : k = 0 := by omega
      subst this
      rfl)

/-- **C4.** For every `n > 0`, both constructors return (the same) pool
with exactly `n` workers whose ids are exactly `0, …, n-1`, each holding a
spawned thread and each sharing the single queue receiver (the one `Arc`,
token `0`); and in the operational model the state in which construction
returns has all `n` worker threads running their loops. -/
theorem construction_spawns_n_workers (n : Nat) (hn : 0 < n) :
    ThreadPool.new n = some (mkPool n)
    ∧ (mkPool n).workers.length = n
    ∧ (mkPool n).workers.map Worker.id = List.range n
    ∧ (∀ w ∈ (mkPool n).workers, w.thread.isSome ∧ w.recvHandle = 0)
    ∧ ThreadPool.build n = Except.ok (mkPool n)
    ∧ (initState n).workers.length = n
    ∧ (∀ st ∈ (initState n).workers, st = WStatus.idle) := by
  refine ⟨?_, ?_, ?_, ?_, ?_, ?_, ?_⟩
  · simp [ThreadPool.new, hn]
  · simp [mkPool]
  · simp only [mkPool, List.map_map]
    have : (Worker.id ∘ fun id => Worker.new id 0) = id := by
      funext i
      rfl
    rw [this, List.map_id]
  · intro w hw
    simp only [mkPool, List.mem_map] at hw
    obtain ⟨i, -, rfl⟩ := hw
    exact ⟨rfl, rfl⟩
  · simp [ThreadPool.build, hn]
  · simp [initState]
  · intro st hst
    simp only [initState, List.mem_replicate] at hst
    exact hst.2

theorem construction_spawns_n_workers_witness :
    ThreadPool.new 3 = some (mkPool 3)
    ∧ (mkPool 3).workers.length = 3
    ∧ (mkPool 3).workers.map Worker.id = List.range 3
    ∧ (∀ w ∈ (mkPool 3).workers, w.thread.isSome ∧ w.recvHandle = 0)
    ∧ ThreadPool.build 3 = Except.ok (mkPool 3)
    ∧ (initState 3).workers.length = 3
    ∧ (∀ st ∈ (initState 3).workers, st = WStatus.idle) :=
  construction_spawns_n_workers 3 (by decide)

/-- **C5.** The two constructors apply the identical validation rule
`n > 0`: with `n = 0` the fallible `build` returns a `PoolCreationError`
value while the strict `new` panics (modelled `none`); for every `n > 0`
both succeed, and for every `m` the two agree on acceptance. -/
theorem constructors_validate_identically (n : Nat) (hn : 0 < n) :
    ThreadPool.new 0 = none
    ∧ ThreadPool.build 0 = Except.error { msg := "n must be greater than 0" }
    ∧ (ThreadPool.new n).isSome
    ∧ (ThreadPool.build n).isOk
    ∧ (∀ m : Nat, (ThreadPool.new m).isSome ↔ (ThreadPool.build m).isOk) := by
  refine ⟨rfl, rfl, ?_, ?_, ?_⟩
  · simp [ThreadPool.new, hn]
  · simp [ThreadPool.build, hn, Except.isOk, Except.toBool]
  · intro m
    rcases Nat.eq_zero_or_pos m with rfl | hm
    · simp [ThreadPool.new, ThreadPool.build, Except.isOk, Except.toBool]
    · simp [ThreadPool.new, ThreadPool.build, hm, Except.isOk, Except.toBool]

theorem constructors_validate_identically_witness :
    ThreadPool.new 0 = none
    ∧ ThreadPool.build 0 = Except.error { msg := "n must be greater than 0" }
    ∧ (ThreadPool.new 1).isSome
    ∧ (ThreadPool.build 1).isOk
    ∧ (∀ m : Nat, (ThreadPool.new m).isSome ↔ (ThreadPool.build m).isOk) :=
  constructors_validate_identically 1 (by decide)

/-- **C7.** Teardown is idempotent.  After one run of the `Drop` body the
producing handle is absent and every worker's thread handle is absent, so
a second run of the same body performs no close and no join
(`(false, [])`) and leaves the pool state unchanged. -/
theorem teardown_idempotent (p : ThreadPool) :
    (dropPool p).1.sender = none
    ∧ (∀ w ∈ (dropPool p).1.workers, w.thread = none)
    ∧ (dropPool (dropPool p).1).2 = (false, [])
    ∧ (dropPool (dropPool p).1).1 = (dropPool p).1 := by
  refine ⟨rfl, ?_, ?_, ?_⟩
  · intro w hw
    simp only [dropPool, List.mem_map] at hw
    obtain ⟨v, -, rfl⟩ := hw
    rfl
  · have hfm : ((fun w : Worker => w.thread.map fun _ => w.id) ∘
        fun w : Worker => { w with thread := none }) = fun _ => none := by
      funext v
      rfl
    simp only [dropPool, Option.isSome_none, List.filterMap_map, hfm]
    rw [List.filterMap_eq_nil_iff.mpr (fun a _ => rfl)]
  · simp only [dropPool, ThreadPool.mk.injEq, and_true, List.map_map]
    apply List.map_congr_left
    intro w _
    rfl

/-- **C8.** Submitting after teardown has begun is fatal, not recoverable:
once the producing handle is revoked (`sender = none`, as the `Drop` body
leaves it), `execute` hits `self.sender.as_ref().unwrap()` and panics
(modelled `none` — no error value is returned to the caller, `execute`
has no error channel at all); while the sender is present, the same call
succeeds and enqueues the job. -/
theorem execute_after_teardown_panics (p q : ThreadPool) (j : Nat)
    (h : p.sender = none) :
    p.execute j = none
    ∧ (dropPool q).1.execute j = none
    ∧ (∀ r : ThreadPool, r.sender.isSome → r.execute j = some j) := by
  refine ⟨?_, rfl, ?_⟩
  · rw [ThreadPool.execute, h]
  · intro r hr
    rw [ThreadPool.execute]
    obtain ⟨u, hu⟩ := Option.isSome_iff_exists.mp hr
    rw [hu]

theorem execute_after_teardown_panics_witness :
    ({ workers := [], sender := none } : ThreadPool).execute 5 = none
    ∧ (dropPool (mkPool 2)).1.execute 5 = none
    ∧ (∀ r : ThreadPool, r.sender.isSome → r.execute 5 = some 5) :=
  execute_after_teardown_panics { workers := [], sender := none } (mkPool 2) 5 rfl

end Websvr
